import Mathlib

/-!
Shallow embedding of the nested-column Parquet read path of the repository
(src/io/parquet/read/nested_utils.rs and src/io/parquet/read/primitive/mod.rs),
together with theorems settling the frozen claims about it.

Conventions:
* Rust `u32` level values are modelled as `Nat`; the two unchecked `u32`
  subtractions of `extend_offsets` (`max_rep - rep` and `def - rep`) are
  modelled twice: once total with truncating `Nat` subtraction
  (`extendOffsets`) and once with an explicit underflow check
  (`extendOffsetsC`, `none` models the overflow panic).
* Rust `i64` offsets and counters are modelled as `Int`.
* A Rust panic (`unwrap`, `todo!`) is modelled as `none` / `Failure.fatal`;
  a typed `ArrowError` as `Failure.notYetImplemented`.
-/

namespace Arrow2

/-- The three implementors of the `Nested` trait of nested_utils.rs:
`NestedPrimitive` (terminal level, carries only a nullability flag),
`NestedOptional` (validity bitmap + offsets buffer) and
`NestedValid` (offsets buffer only). -/
inductive NestedState where
  | primitive (isNullable : Bool)
  | optional (validity : List Bool) (offsets : List Int)
  | valid (offsets : List Int)
deriving DecidableEq, Repr

/-- `Nested::push`: `NestedPrimitive` is a no-op; `NestedOptional` appends the
value to `offsets` and the flag to `validity`; `NestedValid` appends the value
to `offsets` and ignores the flag. -/
def NestedState.push : NestedState → Int → Bool → NestedState
  | .primitive b, _, _ => .primitive b
  | .optional v o, value, isValid => .optional (v ++ [isValid]) (o ++ [value])
  | .valid o, value, _ => .valid (o ++ [value])

/-- `Nested::close`: `NestedPrimitive` is a no-op; the two container variants
append the terminal `length` to `offsets`. -/
def NestedState.close : NestedState → Int → NestedState
  | .primitive b, _ => .primitive b
  | .optional v o, length => .optional v (o ++ [length])
  | .valid o, length => .valid (o ++ [length])

/-- `Nested::last_offset`: `NestedPrimitive` returns 0; the container variants
do `self.offsets.last().unwrap()` — the `unwrap` panic on an empty buffer is
modelled as `none`. -/
def NestedState.lastOffset : NestedState → Option Int
  | .primitive _ => some 0
  | .optional _ o => o.getLast?
  | .valid o => o.getLast?

/-- `Nested::is_nullable`: the stored flag for `NestedPrimitive`, `true` for
`NestedOptional`, `false` for `NestedValid`. -/
def NestedState.isNullable : NestedState → Bool
  | .primitive b => b
  | .optional _ _ => true
  | .valid _ => false

/-- `Nested::inner`: drains the accumulated offsets and (for `NestedOptional`)
the validity. Modelled from the spec: the `MutableBitmap` to `Option<Bitmap>`
conversion is outside the excerpt; per section 4.1 of the spec `inner()` simply
moves the accumulated validity out, modelled as `some validity`. -/
def NestedState.inner : NestedState → List Int × Option (List Bool)
  | .primitive _ => ([], none)
  | .optional v o => (o, some v)
  | .valid o => (o, none)

/-- The offsets buffer of a level state (empty for the terminal variant). -/
def offsetsList : NestedState → List Int
  | .primitive _ => []
  | .optional _ o => o
  | .valid o => o

/-- The validity buffer of a level state (empty unless `NestedOptional`). -/
def validityList : NestedState → List Bool
  | .primitive _ => []
  | .optional v _ => v
  | .valid _ => []

/-- Element of a list of level states at an index, defaulting like the code
never does (the default is only reached outside the stack's range). -/
def nthState (l : List NestedState) (j : Nat) : NestedState :=
  l[j]?.getD (.primitive false)

/-- The closure count computed at the top of the per-pair loop of
`extend_offsets` (nested_utils.rs lines 160–168): start from
`max_rep - rep`, override with 1 when the previous definition level was ≤ 1,
override with `max_rep` on the first pair. -/
def closuresOf (maxRep rep prevDef : Nat) (isFirst : Bool) : Nat :=
  let closures := maxRep - rep
  let closures := if prevDef ≤ 1 then 1 else closures
  let closures := if isFirst then maxRep else closures
  closures

/-- The push loop of `extend_offsets` (nested_utils.rs lines 170–179):
`nested.iter_mut().zip(values_count.iter()).enumerate().skip(rep)
.take((rep + closures) as usize)` visits the depths `d` with
`rep ≤ d < rep + (rep + closures)` that exist in the stack, and pushes
`(values_count[d], !is_null)` with
`is_null = (def - rep) as usize == d && d == rep as usize`.
`depth` is the absolute depth of the head of the remaining zipped list. -/
def pushAll (rep bound dl : Nat) : Nat → List (NestedState × Int) → List NestedState
  | _, [] => []
  | depth, (n, c) :: rest =>
      (if rep ≤ depth ∧ depth < bound then
        n.push c (!((dl - rep == depth) && (depth == rep)))
      else n) :: pushAll rep bound dl (depth + 1) rest

/-- The `values_count` update loop of `extend_offsets` (nested_utils.rs lines
181–202): depth 1 increments when `def == max_def` or (column nullable and
`def == max_def - 1`); depth 0 increments when `rep == 1` or (`rep == 0` and
`def >= max_def.saturating_sub(a + is_nullable)`) where `a` is the nullability
of the level at depth 1 (read from the already-pushed stack), defaulting to
`false`; other depths are untouched. `u32` subtraction is rendered as `Nat`
subtraction (both saturate here). `depth` is the absolute depth of the head of
the remaining counters list. -/
def updateCounts (isNullable : Bool) (maxDef rep dl : Nat) (nestedAfter : List NestedState) :
    Nat → List Int → List Int
  | _, [] => []
  | depth, v :: rest =>
      (if depth == 1 then
        if dl == maxDef || (isNullable && dl == maxDef - 1) then v + 1 else v
      else if depth == 0 then
        let a := ((nestedAfter.get? (depth + 1)).map NestedState.isNullable).getD false
        if rep == 1 || (rep == 0 && decide (maxDef - ((if a then 1 else 0) + (if isNullable then 1 else 0)) ≤ dl)) then
          v + 1
        else v
      else v) :: updateCounts isNullable maxDef rep dl nestedAfter (depth + 1) rest

/-- The loop-carried state of `extend_offsets`: the mutated stack, the
`values_count` vector, `prev_def` and `is_first`. -/
structure ExtState where
  nested : List NestedState
  valuesCount : List Int
  prevDef : Nat
  isFirst : Bool
deriving DecidableEq, Repr

/-- The state at entry of `extend_offsets`: `values_count = vec![0; nested.len()]`,
`prev_def = 0`, `is_first = true`. -/
def initExtState (stack : List NestedState) : ExtState :=
  ⟨stack, List.replicate stack.length 0, 0, true⟩

/-- The body of the per-pair closure of `extend_offsets` (nested_utils.rs
lines 159–204) for one `(rep, def)` pair. -/
def stepPair (isNullable : Bool) (maxRep maxDef : Nat) (s : ExtState) (p : Nat × Nat) : ExtState :=
  let rep := p.1
  let dl := p.2
  let closures := closuresOf maxRep rep s.prevDef s.isFirst
  let nested1 := pushAll rep (rep + (rep + closures)) dl 0 (s.nested.zip s.valuesCount)
  let counts1 := updateCounts isNullable maxDef rep dl nested1 0 s.valuesCount
  ⟨nested1, counts1, dl, false⟩

/-- `extend_offsets` (nested_utils.rs lines 144–213): fold the per-pair body
over the zipped repetition/definition levels, then close every level with its
final `values_count`. -/
def extendOffsets (reps dls : List Nat) (isNullable : Bool) (maxRep maxDef : Nat)
    (stack : List NestedState) : List NestedState :=
  let s := (reps.zip dls).foldl (stepPair isNullable maxRep maxDef) (initExtState stack)
  List.zipWith (fun n c => NestedState.close n c) s.nested s.valuesCount

/-- The pair loop of `extend_offsets` with the two unchecked `u32`
subtractions (`max_rep - rep` and `def - rep`) guarded: `none` models the
debug-mode overflow panic, reached exactly when `rep > max_rep` or
`rep > def`. -/
def runPairsC (isNullable : Bool) (maxRep maxDef : Nat) :
    ExtState → List (Nat × Nat) → Option ExtState
  | s, [] => some s
  | s, p :: rest =>
      if p.1 ≤ maxRep ∧ p.1 ≤ p.2 then
        runPairsC isNullable maxRep maxDef (stepPair isNullable maxRep maxDef s p) rest
      else none

/-- `extend_offsets` with checked subtractions (see `runPairsC`). -/
def extendOffsetsC (reps dls : List Nat) (isNullable : Bool) (maxRep maxDef : Nat)
    (stack : List NestedState) : Option (List NestedState) :=
  (runPairsC isNullable maxRep maxDef (initExtState stack) (reps.zip dls)).map
    (fun s => List.zipWith (fun n c => NestedState.close n c) s.nested s.valuesCount)

/-- The physical types of the crate's `PhysicalType` enum that appear in the
match of `init_nested`; `union` and `mapT` land in the `_ => todo!()` arm. -/
inductive PhysicalType where
  | null | boolean | primitive | fixedSizeBinary | binary | largeBinary
  | utf8 | largeUtf8 | dictionary | list | largeList | fixedSizeList
  | struct | union | mapT
deriving DecidableEq, Repr

/-- The crate's `DataType`, flattened: a child `Field` is rendered as the pair
of its data type and its nullability (field names play no role in the decode).
`int64` stands for the `Primitive(_)` physical family; `union`/`mapT` are the
logical types whose physical type reaches the `todo!()` arm of
`init_nested`. -/
inductive DataType where
  | null
  | boolean
  | int64
  | fixedSizeBinary
  | binary
  | largeBinary
  | utf8
  | largeUtf8
  | dictionary (values : DataType)
  | list (item : DataType) (itemNullable : Bool)
  | largeList (item : DataType) (itemNullable : Bool)
  | fixedSizeList (item : DataType) (itemNullable : Bool) (size : Nat)
  | struct (fields : List (DataType × Bool))
  | union
  | mapT

/-- `DataType::to_physical_type`. -/
def DataType.toPhysicalType : DataType → PhysicalType
  | .null => .null
  | .boolean => .boolean
  | .int64 => .primitive
  | .fixedSizeBinary => .fixedSizeBinary
  | .binary => .binary
  | .largeBinary => .largeBinary
  | .utf8 => .utf8
  | .largeUtf8 => .largeUtf8
  | .dictionary _ => .dictionary
  | .list _ _ => .list
  | .largeList _ _ => .largeList
  | .fixedSizeList _ _ _ => .fixedSizeList
  | .struct _ => .struct
  | .union => .union
  | .mapT => .mapT

/-- Failure channel: `fatal` models a Rust panic (`todo!()`, `unwrap()` on
`None`); `notYetImplemented` models the typed, recoverable
`ArrowError::NotYetImplemented` naming the offending data type. -/
inductive Failure where
  | fatal
  | notYetImplemented (dt : DataType)

mutual

/-- `init_nested` (nested_utils.rs lines 215–251), with `initNestedFields`
rendering the `fields.iter().for_each(...)` recursion of the `Struct` arm.
Arms are grouped by `to_physical_type()` exactly as in the source; the
flattened `DataType` makes the source's second (logical) match of the
list-like arm — whose `_ => unreachable!()` branch cannot be reached —
collapse into the same pattern. The `capacity` argument only pre-sizes
buffers and has no observable effect. The `_ => todo!()` arm (here `union`
and `mapT`) is the fatal panic. -/
def initNested (dt : DataType) (isNullable : Bool) (capacity : Nat)
    (container : List NestedState) : Except Failure (List NestedState) :=
  match dt with
  | .null | .boolean | .int64 | .fixedSizeBinary | .binary | .largeBinary
  | .utf8 | .largeUtf8 | .dictionary _ =>
      .ok (container ++ [.primitive isNullable])
  | .list item itemNullable | .largeList item itemNullable
  | .fixedSizeList item itemNullable _ =>
      initNested item itemNullable capacity
        (container ++ [if isNullable then .optional [] [] else .valid []])
  | .struct fields =>
      initNestedFields fields capacity (container ++ [.primitive isNullable])
  | .union | .mapT => .error .fatal
termination_by sizeOf dt

/-- The recursion of `init_nested` over a struct's child fields, in schema
order (see `initNested`). -/
def initNestedFields (fields : List (DataType × Bool)) (capacity : Nat)
    (container : List NestedState) : Except Failure (List NestedState) :=
  match fields with
  | [] => .ok container
  | (dt, nb) :: rest =>
      match initNested dt nb capacity container with
      | .ok container1 => initNestedFields rest capacity container1
      | .error e => .error e
termination_by sizeOf fields

end

/-- Rust's `x as i32` on an `i64`: keep the low 32 bits, reinterpreted as a
signed 32-bit value. -/
def toI32 (x : Int) : Int :=
  let m := x % 4294967296
  if m < 2147483648 then m else m - 4294967296

/-- The arrays produced by the read path: `primitiveA` is
`PrimitiveArray::from_data`, `listA`/`largeListA` are
`ListArray::<i32>::from_data` / `ListArray::<i64>::from_data`, each keeping
the data type it was built with. -/
inductive ArrayM where
  | primitiveA (dt : DataType) (values : List Int) (validity : Option (List Bool))
  | listA (dt : DataType) (offsets : List Int) (values : ArrayM)
      (validity : Option (List Bool))
  | largeListA (dt : DataType) (offsets : List Int) (values : ArrayM)
      (validity : Option (List Bool))

/-- `create_list` (nested_utils.rs lines 253–281): pop the innermost (last)
level state — `unwrap` on an empty stack is the fatal panic — drain it with
`inner()`, and build the requested list flavor. For `DataType::List` each
`i64` offset is converted with `as i32` (`toI32`, unchecked); for
`DataType::LargeList` the offsets are used unchanged; any other data type is
the typed `NotYetImplemented` error naming it. -/
def createList (dt : DataType) (nested : List NestedState) (values : ArrayM) :
    Except Failure (ArrayM × List NestedState) :=
  match dt with
  | .list item itemNullable =>
      match nested.getLast? with
      | none => .error .fatal
      | some n =>
          let inn := n.inner
          .ok (.listA (.list item itemNullable) (inn.1.map toI32) values inn.2,
            nested.dropLast)
  | .largeList item itemNullable =>
      match nested.getLast? with
      | none => .error .fatal
      | some n =>
          let inn := n.inner
          .ok (.largeListA (.largeList item itemNullable) inn.1 values inn.2,
            nested.dropLast)
  | _ => .error (.notYetImplemented dt)

/-- A data page as seen by the pipeline: its repetition and definition level
streams and its already-decoded leaf payload (values with per-slot validity);
the typed leaf decode itself is an external collaborator (spec section 6). -/
structure DataPage where
  reps : List Nat
  dls : List Nat
  values : List Int
  valids : List Bool

/-- Column chunk metadata: the schema-derived maximum repetition and
definition levels read from `metadata.descriptor()` (spec section 6; the
total value count only pre-sizes buffers). -/
structure ColumnChunkMetaData where
  maxRep : Nat
  maxDef : Nat

/-- Modelled from the spec: `basic::extend_from_page` (primitive/basic.rs is
not in the excerpt). Per sections 4.5 and 6 of the spec, the flat-column leaf
decode appends the page's decoded values and null markers to the shared
value buffer and validity. -/
def basicExtendFromPage (page : DataPage) (values : List Int) (validity : List Bool) :
    List Int × List Bool :=
  (values ++ page.values, validity ++ page.valids)

/-- Modelled from the spec: `nested::extend_from_page` (primitive/nested.rs is
not in the excerpt). Per section 4.5 step 3 it first invokes the Level
Decoder (`extend_offsets`) on the page's level streams, then appends the
page's decoded leaf values; per section 6 it differs from the flat variant
only in consulting the innermost level's nullability: when the leaf level is
not nullable every appended slot is valid, otherwise the page's null markers
are kept. -/
def nestedExtendFromPage (meta : ColumnChunkMetaData) (isNullable : Bool)
    (page : DataPage) (nested : List NestedState) (values : List Int)
    (validity : List Bool) : List NestedState × List Int × List Bool :=
  let nested1 := extendOffsets page.reps page.dls isNullable meta.maxRep meta.maxDef nested
  (nested1, values ++ page.values,
    validity ++ (if isNullable then page.valids else page.values.map (fun _ => true)))

/-- The `data_type` rewrite shared by both orchestrations: a dictionary type
is replaced by its value type. -/
def unwrapDict : DataType → DataType
  | .dictionary values => values
  | dt => dt

/-- `iter_to_array` (primitive/mod.rs lines 64–113): pop the innermost level
state (`unwrap` on an empty stack is the fatal panic) to read the column's
nullability; if the remaining stack is empty loop the flat leaf decode over
the pages, otherwise loop the nested per-page step; finally wrap the leaf
buffers into a primitive array with the dictionary-unwrapped data type.
Returns the array together with the remaining (mutated) stack. -/
def iterToArray (pages : List DataPage) (meta : ColumnChunkMetaData)
    (dt : DataType) (nested : List NestedState) :
    Except Failure (ArrayM × List NestedState) :=
  match nested.getLast? with
  | none => .error .fatal
  | some innerState =>
      let isNullable := innerState.isNullable
      let nested0 := nested.dropLast
      if nested0.isEmpty then
        let r := pages.foldl (fun acc p => basicExtendFromPage p acc.1 acc.2) ([], [])
        .ok (.primitiveA (unwrapDict dt) r.1 (some r.2), nested0)
      else
        let r := pages.foldl
          (fun acc p =>
            let q := nestedExtendFromPage meta isNullable p acc.1 acc.2.1 acc.2.2
            (q.1, q.2.1, q.2.2))
          (nested0, [], [])
        .ok (.primitiveA (unwrapDict dt) r.2.1 (some r.2.2), r.1)

/-- `stream_to_array` (primitive/mod.rs lines 22–62): loop the flat leaf
decode over the pages and wrap the leaf buffers into a primitive array with
the dictionary-unwrapped data type. It takes no nested state stack and never
invokes the Level Decoder. -/
def streamToArray (pages : List DataPage) (_meta : ColumnChunkMetaData)
    (dt : DataType) : ArrayM :=
  let r := pages.foldl (fun acc p => basicExtendFromPage p acc.1 acc.2) ([], [])
  .primitiveA (unwrapDict dt) r.1 (some r.2)

/-- The per-page level-decoding loop of the nested branch of `iter_to_array`:
each page's level streams drive one `extend_offsets` call against the same
stack (spec section 4.5 step 3), here projected to the stack alone. -/
def decodePages (pagesLevels : List (List Nat × List Nat)) (isNullable : Bool)
    (maxRep maxDef : Nat) (stack : List NestedState) : List NestedState :=
  pagesLevels.foldl (fun st p => extendOffsets p.1 p.2 isNullable maxRep maxDef st) stack

/-- Counter value at an index, defaulting to 0 outside the range. -/
def nthCount (l : List Int) (j : Nat) : Int :=
  l[j]?.getD 0

theorem pushAll_length (rep bound dl : Nat) :
    ∀ (k : Nat) (l : List (NestedState × Int)), (pushAll rep bound dl k l).length = l.length := by
  intro k l
  induction l generalizing k with
  | nil => rfl
  | cons x rest ih => simpa [pushAll] using ih (k + 1)

theorem updateCounts_length (isNullable : Bool) (maxDef rep dl : Nat)
    (nestedAfter : List NestedState) :
    ∀ (k : Nat) (l : List Int),
      (updateCounts isNullable maxDef rep dl nestedAfter k l).length = l.length := by
  intro k l
  induction l generalizing k with
  | nil => rfl
  | cons x rest ih => simpa [updateCounts] using ih (k + 1)

theorem pushAll_getElem? (rep bound dl : Nat) :
    ∀ (k j : Nat) (l : List (NestedState × Int)),
      (pushAll rep bound dl k l)[j]? =
        l[j]?.map (fun q =>
          if rep ≤ k + j ∧ k + j < bound then
            q.1.push q.2 (!((dl - rep == k + j) && (k + j == rep)))
          else q.1) := by
  intro k j l
  induction l generalizing k j with
  | nil => simp [pushAll]
  | cons x rest ih =>
      cases j with
      | zero => simp [pushAll]
      | succ j =>
          have h := ih (k + 1) j
          have hkj : k + 1 + j = k + (j + 1) := by omega
          rw [hkj] at h
          simpa [pushAll] using h

theorem zip_getElem?_eq {α β : Type} (l1 : List α) (l2 : List β) (j : Nat)
    (a : α) (b : β) (h1 : l1[j]? = some a) (h2 : l2[j]? = some b) :
    (l1.zip l2)[j]? = some (a, b) := by
  induction l1 generalizing l2 j with
  | nil => simp at h1
  | cons x rest ih =>
      cases l2 with
      | nil => simp at h2
      | cons y rest2 =>
          cases j with
          | zero =>
              simp at h1 h2
              simp [List.zip, h1, h2]
          | succ j =>
              simp at h1 h2
              simpa [List.zip] using ih rest2 j h1 h2

theorem stepPair_nested_length (isNullable : Bool) (maxRep maxDef : Nat) (s : ExtState)
    (p : Nat × Nat) (hwf : s.valuesCount.length = s.nested.length) :
    (stepPair isNullable maxRep maxDef s p).nested.length = s.nested.length := by
  simp [stepPair, pushAll_length, hwf]

theorem stepPair_counts_length (isNullable : Bool) (maxRep maxDef : Nat) (s : ExtState)
    (p : Nat × Nat) (hwf : s.valuesCount.length = s.nested.length) :
    (stepPair isNullable maxRep maxDef s p).valuesCount.length = s.nested.length := by
  simp [stepPair, updateCounts_length, hwf]

theorem stepPair_get (isNullable : Bool) (maxRep maxDef : Nat) (s : ExtState)
    (rep dl j : Nat) (hwf : s.valuesCount.length = s.nested.length)
    (hj : j < s.nested.length) :
    nthState (stepPair isNullable maxRep maxDef s (rep, dl)).nested j =
      (if rep ≤ j ∧ j < rep + (rep + closuresOf maxRep rep s.prevDef s.isFirst) then
        (nthState s.nested j).push (nthCount s.valuesCount j)
          (!((dl - rep == j) && (j == rep)))
      else nthState s.nested j) := by
  obtain ⟨a, ha⟩ : ∃ a, s.nested[j]? = some a := ⟨_, List.getElem?_eq_getElem hj⟩
  have hj2 : j < s.valuesCount.length := by omega
  obtain ⟨b, hb⟩ : ∃ b, s.valuesCount[j]? = some b := ⟨_, List.getElem?_eq_getElem hj2⟩
  have hz := zip_getElem?_eq s.nested s.valuesCount j _ _ ha hb
  simp only [stepPair, nthState]
  rw [pushAll_getElem? rep (rep + (rep + closuresOf maxRep rep s.prevDef s.isFirst)) dl 0 j
    (s.nested.zip s.valuesCount)]
  simp [hz, ha, hb, nthCount]

theorem offsetsList_push (n : NestedState) (c : Int) (b : Bool) :
    ∃ t, offsetsList (n.push c b) = offsetsList n ++ t := by
  cases n <;> exact ⟨_, rfl⟩

theorem offsetsList_close (n : NestedState) (c : Int) :
    ∃ t, offsetsList (n.close c) = offsetsList n ++ t := by
  cases n <;> exact ⟨_, rfl⟩

theorem stepPair_offsets_append (isNullable : Bool) (maxRep maxDef : Nat) (s : ExtState)
    (p : Nat × Nat) (hwf : s.valuesCount.length = s.nested.length) (j : Nat) :
    ∃ t, offsetsList (nthState (stepPair isNullable maxRep maxDef s p).nested j) =
      offsetsList (nthState s.nested j) ++ t := by
  by_cases hj : j < s.nested.length
  · obtain ⟨rep, dl⟩ := p
    rw [stepPair_get isNullable maxRep maxDef s rep dl j hwf hj]
    by_cases hc : rep ≤ j ∧ j < rep + (rep + closuresOf maxRep rep s.prevDef s.isFirst)
    · simp only [if_pos hc]
      exact offsetsList_push _ _ _
    · simp only [if_neg hc]
      exact ⟨[], by simp⟩
  · have hlen := stepPair_nested_length isNullable maxRep maxDef s p hwf
    have h1 : (stepPair isNullable maxRep maxDef s p).nested[j]? = none :=
      List.getElem?_eq_none (by omega)
    have h2 : s.nested[j]? = none := List.getElem?_eq_none (by omega)
    exact ⟨[], by simp [nthState, h1, h2]⟩

theorem zipWith_getElem?_eq {α β γ : Type} (f : α → β → γ) (l1 : List α) (l2 : List β)
    (j : Nat) (a : α) (b : β) (h1 : l1[j]? = some a) (h2 : l2[j]? = some b) :
    (List.zipWith f l1 l2)[j]? = some (f a b) := by
  induction l1 generalizing l2 j with
  | nil => simp at h1
  | cons x rest ih =>
      cases l2 with
      | nil => simp at h2
      | cons y rest2 =>
          cases j with
          | zero =>
              simp at h1 h2
              simp [h1, h2]
          | succ j =>
              simp at h1 h2
              simpa using ih rest2 j h1 h2

theorem foldPairs_wf (isNullable : Bool) (maxRep maxDef : Nat) :
    ∀ (pairs : List (Nat × Nat)) (s : ExtState),
      s.valuesCount.length = s.nested.length →
      (pairs.foldl (stepPair isNullable maxRep maxDef) s).valuesCount.length =
          (pairs.foldl (stepPair isNullable maxRep maxDef) s).nested.length ∧
        (pairs.foldl (stepPair isNullable maxRep maxDef) s).nested.length =
          s.nested.length := by
  intro pairs
  induction pairs with
  | nil => exact fun s h => ⟨h, rfl⟩
  | cons p rest ih =>
      intro s h
      have h1 := stepPair_nested_length isNullable maxRep maxDef s p h
      have h2 := stepPair_counts_length isNullable maxRep maxDef s p h
      have h3 := ih (stepPair isNullable maxRep maxDef s p) (by omega)
      simp only [List.foldl_cons]
      omega

theorem foldPairs_offsets_append (isNullable : Bool) (maxRep maxDef : Nat) :
    ∀ (pairs : List (Nat × Nat)) (s : ExtState),
      s.valuesCount.length = s.nested.length →
      ∀ j, ∃ t,
        offsetsList (nthState (pairs.foldl (stepPair isNullable maxRep maxDef) s).nested j) =
          offsetsList (nthState s.nested j) ++ t := by
  intro pairs
  induction pairs with
  | nil => exact fun s _ j => ⟨[], by simp⟩
  | cons p rest ih =>
      intro s h j
      obtain ⟨t1, ht1⟩ := stepPair_offsets_append isNullable maxRep maxDef s p h j
      have hwf1 : (stepPair isNullable maxRep maxDef s p).valuesCount.length =
          (stepPair isNullable maxRep maxDef s p).nested.length := by
        have h1 := stepPair_nested_length isNullable maxRep maxDef s p h
        have h2 := stepPair_counts_length isNullable maxRep maxDef s p h
        omega
      obtain ⟨t2, ht2⟩ := ih (stepPair isNullable maxRep maxDef s p) hwf1 j
      exact ⟨t1 ++ t2, by simp only [List.foldl_cons, ht2, ht1, List.append_assoc]⟩

theorem stepPair_optional (isNullable : Bool) (maxRep maxDef : Nat) (s : ExtState)
    (p : Nat × Nat) (j : Nat) (v : List Bool) (o : List Int)
    (hwf : s.valuesCount.length = s.nested.length) (hj : j < s.nested.length)
    (h : nthState s.nested j = .optional v o) :
    ∃ v1 o1, nthState (stepPair isNullable maxRep maxDef s p).nested j =
        .optional (v ++ v1) (o ++ o1) ∧ v1.length = o1.length := by
  obtain ⟨rep, dl⟩ := p
  rw [stepPair_get isNullable maxRep maxDef s rep dl j hwf hj]
  by_cases hc : rep ≤ j ∧ j < rep + (rep + closuresOf maxRep rep s.prevDef s.isFirst)
  · refine ⟨[!((dl - rep == j) && (j == rep))], [nthCount s.valuesCount j], ?_, rfl⟩
    simp [if_pos hc, h, NestedState.push]
  · exact ⟨[], [], by simp [if_neg hc, h], rfl⟩

theorem foldPairs_optional (isNullable : Bool) (maxRep maxDef : Nat) :
    ∀ (pairs : List (Nat × Nat)) (s : ExtState) (j : Nat) (v : List Bool) (o : List Int),
      s.valuesCount.length = s.nested.length → j < s.nested.length →
      nthState s.nested j = .optional v o →
      ∃ v1 o1, nthState (pairs.foldl (stepPair isNullable maxRep maxDef) s).nested j =
          .optional (v ++ v1) (o ++ o1) ∧ v1.length = o1.length := by
  intro pairs
  induction pairs with
  | nil => exact fun s j v o _ _ h => ⟨[], [], by simpa using h, rfl⟩
  | cons p rest ih =>
      intro s j v o hwf hj h
      obtain ⟨v1, o1, h1, hl1⟩ := stepPair_optional isNullable maxRep maxDef s p j v o hwf hj h
      have hn := stepPair_nested_length isNullable maxRep maxDef s p hwf
      have hc := stepPair_counts_length isNullable maxRep maxDef s p hwf
      obtain ⟨v2, o2, h2, hl2⟩ := ih (stepPair isNullable maxRep maxDef s p) j (v ++ v1)
        (o ++ o1) (by omega) (by omega) h1
      refine ⟨v1 ++ v2, o1 ++ o2, ?_, by simp [hl1, hl2]⟩
      simpa [List.append_assoc] using h2

theorem extendOffsets_length (reps dls : List Nat) (isNullable : Bool) (maxRep maxDef : Nat)
    (stack : List NestedState) :
    (extendOffsets reps dls isNullable maxRep maxDef stack).length = stack.length := by
  have h := foldPairs_wf isNullable maxRep maxDef (reps.zip dls) (initExtState stack)
    (by simp [initExtState])
  simp only [extendOffsets, List.length_zipWith, initExtState] at h ⊢
  omega

theorem extendOffsets_optional (reps dls : List Nat) (isNullable : Bool) (maxRep maxDef : Nat)
    (stack : List NestedState) (j : Nat) (v : List Bool) (o : List Int)
    (hj : j < stack.length) (h : nthState stack j = .optional v o) :
    ∃ v1 o1, nthState (extendOffsets reps dls isNullable maxRep maxDef stack) j =
        .optional (v ++ v1) (o ++ o1) ∧ o1.length = v1.length + 1 := by
  have hwf0 : (initExtState stack).valuesCount.length = (initExtState stack).nested.length := by
    simp [initExtState]
  have hfold := foldPairs_optional isNullable maxRep maxDef (reps.zip dls) (initExtState stack)
    j v o hwf0 (by simpa [initExtState] using hj) (by simpa [initExtState] using h)
  obtain ⟨v1, o1, h1, hl1⟩ := hfold
  obtain ⟨hwfe, hlen⟩ := foldPairs_wf isNullable maxRep maxDef (reps.zip dls)
    (initExtState stack) hwf0
  set sf := (reps.zip dls).foldl (stepPair isNullable maxRep maxDef) (initExtState stack) with hsf
  have hjf : j < sf.nested.length := by
    simp only [initExtState] at hlen
    omega
  have hjc : j < sf.valuesCount.length := by omega
  obtain ⟨a, ha⟩ : ∃ a, sf.nested[j]? = some a := ⟨_, List.getElem?_eq_getElem hjf⟩
  obtain ⟨b, hb⟩ : ∃ b, sf.valuesCount[j]? = some b := ⟨_, List.getElem?_eq_getElem hjc⟩
  have hz := zipWith_getElem?_eq (fun n c => NestedState.close n c) sf.nested sf.valuesCount
    j _ _ ha hb
  have hcur : a = .optional (v ++ v1) (o ++ o1) := by
    have : nthState sf.nested j = a := by simp [nthState, ha]
    rw [this] at h1
    exact h1
  refine ⟨v1, o1 ++ [b], ?_, by simp [hl1]⟩
  simp only [extendOffsets, ← hsf, nthState]
  rw [hz]
  simp only [Option.getD_some, hcur]
  simp [NestedState.close, List.append_assoc]

theorem head?_append_zero (l t : List Int) (h : l.head? = some 0) :
    (l ++ t).head? = some 0 := by
  cases l with
  | nil => simp at h
  | cons x rest => simpa using h

theorem foldPairs_head_zero (isNullable : Bool) (maxRep maxDef : Nat)
    (pairs : List (Nat × Nat)) (s : ExtState) (j : Nat)
    (hwf : s.valuesCount.length = s.nested.length)
    (h : (offsetsList (nthState s.nested j)).head? = some 0) :
    (offsetsList (nthState (pairs.foldl (stepPair isNullable maxRep maxDef) s).nested j)).head? =
      some 0 := by
  obtain ⟨t, ht⟩ := foldPairs_offsets_append isNullable maxRep maxDef pairs s hwf j
  rw [ht]
  exact head?_append_zero _ t h

theorem foldPairs_isFirst (isNullable : Bool) (maxRep maxDef : Nat) :
    ∀ (pairs : List (Nat × Nat)) (s : ExtState),
      (pairs.foldl (stepPair isNullable maxRep maxDef) s).isFirst =
        (s.isFirst && pairs.isEmpty) := by
  intro pairs
  induction pairs with
  | nil => simp
  | cons p rest ih =>
      intro s
      rw [List.foldl_cons, ih (stepPair isNullable maxRep maxDef s p)]
      simp [stepPair]

theorem foldPairs_prevDef_last (isNullable : Bool) (maxRep maxDef : Nat)
    (ps : List (Nat × Nat)) (s : ExtState) (r d : Nat) :
    ((ps ++ [(r, d)]).foldl (stepPair isNullable maxRep maxDef) s).prevDef = d := by
  rw [List.foldl_append]
  rfl

theorem runPairsC_eq_fold (isNullable : Bool) (maxRep maxDef : Nat) :
    ∀ (pairs : List (Nat × Nat)) (s : ExtState),
      (∀ p ∈ pairs, p.1 ≤ maxRep ∧ p.1 ≤ p.2) →
      runPairsC isNullable maxRep maxDef s pairs =
        some (pairs.foldl (stepPair isNullable maxRep maxDef) s) := by
  intro pairs
  induction pairs with
  | nil => intro s _; rfl
  | cons p rest ih =>
      intro s h
      have hp := h p (by simp)
      have hrest : ∀ q ∈ rest, q.1 ≤ maxRep ∧ q.1 ≤ q.2 := fun q hq => h q (by simp [hq])
      simp only [runPairsC, if_pos hp, List.foldl_cons]
      exact ih (stepPair isNullable maxRep maxDef s p) hrest

theorem zipWith_close_replicate :
    ∀ (l : List NestedState),
      List.zipWith (fun n c => NestedState.close n c) l (List.replicate l.length 0) =
        l.map (fun n => n.close 0) := by
  intro l
  induction l with
  | nil => rfl
  | cons x rest ih => simpa [List.replicate_succ] using ih

theorem extendOffsets_nil (isNullable : Bool) (maxRep maxDef : Nat)
    (stack : List NestedState) :
    extendOffsets [] [] isNullable maxRep maxDef stack =
      stack.map (fun n => n.close 0) := by
  simp only [extendOffsets, List.zip_nil_left, List.foldl_nil, initExtState]
  exact zipWith_close_replicate stack

theorem decodePages_optional (isNullable : Bool) (maxRep maxDef : Nat) :
    ∀ (pagesLevels : List (List Nat × List Nat)) (stack : List NestedState) (j : Nat)
      (v : List Bool) (o : List Int), j < stack.length →
      nthState stack j = .optional v o →
      ∃ v1 o1,
        nthState (decodePages pagesLevels isNullable maxRep maxDef stack) j =
            .optional (v ++ v1) (o ++ o1) ∧
          o1.length = v1.length + pagesLevels.length := by
  intro pagesLevels
  induction pagesLevels with
  | nil => exact fun stack j v o _ h => ⟨[], [], by simpa [decodePages] using h, rfl⟩
  | cons p rest ih =>
      intro stack j v o hj h
      obtain ⟨v1, o1, h1, hl1⟩ := extendOffsets_optional p.1 p.2 isNullable maxRep maxDef
        stack j v o hj h
      have hlen := extendOffsets_length p.1 p.2 isNullable maxRep maxDef stack
      obtain ⟨v2, o2, h2, hl2⟩ := ih (extendOffsets p.1 p.2 isNullable maxRep maxDef stack)
        j (v ++ v1) (o ++ o1) (by omega) h1
      refine ⟨v1 ++ v2, o1 ++ o2, ?_, by simp [hl1, hl2]; omega⟩
      simpa [decodePages, List.append_assoc] using h2

theorem extendOffsets_close_append (reps dls : List Nat) (isNullable : Bool)
    (maxRep maxDef : Nat) (stack : List NestedState) (j : Nat) (hj : j < stack.length) :
    ∃ t, offsetsList (nthState (extendOffsets reps dls isNullable maxRep maxDef stack) j) =
      offsetsList
          (nthState
            ((reps.zip dls).foldl (stepPair isNullable maxRep maxDef)
              (initExtState stack)).nested j) ++ t := by
  have hwf0 : (initExtState stack).valuesCount.length = (initExtState stack).nested.length := by
    simp [initExtState]
  obtain ⟨hwfe, hlen⟩ := foldPairs_wf isNullable maxRep maxDef (reps.zip dls)
    (initExtState stack) hwf0
  set sf := (reps.zip dls).foldl (stepPair isNullable maxRep maxDef) (initExtState stack)
    with hsf
  have hjf : j < sf.nested.length := by
    simp only [initExtState] at hlen
    omega
  have hjc : j < sf.valuesCount.length := by omega
  obtain ⟨a, ha⟩ : ∃ a, sf.nested[j]? = some a := ⟨_, List.getElem?_eq_getElem hjf⟩
  obtain ⟨b, hb⟩ : ∃ b, sf.valuesCount[j]? = some b := ⟨_, List.getElem?_eq_getElem hjc⟩
  have hz := zipWith_getElem?_eq (fun n c => NestedState.close n c) sf.nested sf.valuesCount
    j _ _ ha hb
  obtain ⟨t, ht⟩ := offsetsList_close a b
  refine ⟨t, ?_⟩
  simp only [extendOffsets, ← hsf, nthState]
  rw [hz]
  simp only [Option.getD_some, ht, ha, Option.getD_some]

theorem extendOffsets_first_rep_zero (rtl dtl : List Nat) (d0 : Nat) (isNullable : Bool)
    (maxRep maxDef : Nat) (stack : List NestedState) (j : Nat) (v : List Bool)
    (hj : j < stack.length) (hmr : j < maxRep)
    (hfresh : nthState stack j = .optional v [] ∨ nthState stack j = .valid []) :
    (offsetsList
        (nthState (extendOffsets (0 :: rtl) (d0 :: dtl) isNullable maxRep maxDef stack)
          j)).head? = some 0 := by
  have hwf0 : (initExtState stack).valuesCount.length = (initExtState stack).nested.length := by
    simp [initExtState]
  have hzip : (0 :: rtl).zip (d0 :: dtl) = (0, d0) :: rtl.zip dtl := rfl
  obtain ⟨t, ht⟩ := extendOffsets_close_append (0 :: rtl) (d0 :: dtl) isNullable maxRep maxDef
    stack j hj
  rw [ht]
  apply head?_append_zero
  rw [hzip, List.foldl_cons]
  have hs1wf : (stepPair isNullable maxRep maxDef (initExtState stack) (0, d0)).valuesCount.length =
      (stepPair isNullable maxRep maxDef (initExtState stack) (0, d0)).nested.length := by
    have h1 := stepPair_nested_length isNullable maxRep maxDef (initExtState stack) (0, d0) hwf0
    have h2 := stepPair_counts_length isNullable maxRep maxDef (initExtState stack) (0, d0) hwf0
    omega
  apply foldPairs_head_zero isNullable maxRep maxDef (rtl.zip dtl) _ j hs1wf
  have hstep := stepPair_get isNullable maxRep maxDef (initExtState stack) 0 d0 j hwf0
    (by simpa [initExtState] using hj)
  have hclos : closuresOf maxRep 0 0 true = maxRep := rfl
  have hcond : 0 ≤ j ∧ j <
      0 + (0 + closuresOf maxRep 0 (initExtState stack).prevDef (initExtState stack).isFirst) := by
    simp only [initExtState]
    rw [hclos]
    omega
  rw [hstep, if_pos hcond]
  have hcnt : nthCount (initExtState stack).valuesCount j = 0 := by
    simp [initExtState, nthCount, List.getElem?_replicate, hj]
  have hnth : nthState (initExtState stack).nested j = nthState stack j := rfl
  rw [hcnt, hnth]
  rcases hfresh with h | h <;> rw [h] <;> rfl

/-! Claim theorems. -/

/-- C1, counterexample. The claim states that a push is performed at exactly
the depths in `[rep, rep + closures)`. In the run below (stack of three
offset-bearing levels, `max_rep = 2`, `max_def = 3`, pairs `(0,3)` then
`(1,3)`), the claimed windows are `[0, 0 + 2)` for the first pair (closure
count `closuresOf 2 0 0 true = 2`: `prev_def = 0`, first pair) and `[1, 1 + 1)`
for the second (closure count `closuresOf 2 1 3 false = 1`), so depth 2 should
receive no push at all and end with exactly the one terminal offset appended
by `close`. Instead its offsets buffer ends with two entries — the source's
`.skip(rep).take(rep + closures)` pushed at depth 2 on the second pair. -/
theorem c1_counterexample :
    offsetsList
        (nthState (extendOffsets [0, 1] [3, 3] false 2 3
          [.valid [], .valid [], .valid []]) 2) = [0, 0] ∧
      0 + closuresOf 2 0 0 true ≤ 2 ∧ 1 + closuresOf 2 1 3 false ≤ 2 := by
  refine ⟨?_, by decide, by decide⟩
  decide

/-- C1, amended: in the per-pair body of `extend_offsets`, a push of
`(values_count[depth], is_valid)` is performed at exactly the depths of the
stack in the half-open window `[rep, rep + (rep + closures))` — the effect of
`.enumerate().skip(rep).take(rep + closures)` — not `[rep, rep + closures)`;
`is_valid` is false exactly when `(def - rep) == depth` and `depth == rep`,
as the claim states. -/
theorem c1_push_window (isNullable : Bool) (maxRep maxDef : Nat) (s : ExtState)
    (rep dl j : Nat) (hwf : s.valuesCount.length = s.nested.length)
    (hj : j < s.nested.length) :
    nthState (stepPair isNullable maxRep maxDef s (rep, dl)).nested j =
      (if rep ≤ j ∧ j < rep + (rep + closuresOf maxRep rep s.prevDef s.isFirst) then
        (nthState s.nested j).push (nthCount s.valuesCount j)
          (!((dl - rep == j) && (j == rep)))
      else nthState s.nested j) :=
  stepPair_get isNullable maxRep maxDef s rep dl j hwf hj

/-- Witness for `c1_push_window` at a concrete state: depth 2 of a
three-level stack is pushed by the pair `(1, 3)` although the claimed window
`[1, 2)` excludes it. -/
theorem c1_push_window_witness :
    ([0, 0, 0] : List Int).length = ([.valid [], .valid [], .valid []] : List NestedState).length ∧
      2 < ([.valid [], .valid [], .valid []] : List NestedState).length ∧
      nthState (stepPair false 2 3 ⟨[.valid [], .valid [], .valid []], [0, 0, 0], 3, false⟩
          (1, 3)).nested 2 =
        (if 1 ≤ 2 ∧ 2 < 1 + (1 + closuresOf 2 1 3 false) then
          (nthState [.valid [], .valid [], .valid []] 2).push (nthCount [0, 0, 0] 2)
            (!((3 - 1 == 2) && (2 == 1)))
        else nthState [.valid [], .valid [], .valid []] 2) :=
  ⟨by decide, by decide,
    c1_push_window false 2 3 ⟨[.valid [], .valid [], .valid []], [0, 0, 0], 3, false⟩
      1 3 2 (by decide) (by decide)⟩

/-- C2: the closure count of a level pair is `max_rep - rep`, overridden to 1
when the previous pair's definition level was ≤ 1, overridden to `max_rep` on
the very first pair regardless of the other override; in the decode fold,
`is_first` holds exactly on the first pair and `prev_def` is the previous
pair's definition level (the last processed pair's `def`). -/
theorem c2_closure_count (isNullable : Bool) (maxRep maxDef : Nat) :
    (∀ (rep prevDef : Nat) (isFirst : Bool),
      closuresOf maxRep rep prevDef isFirst =
        if isFirst then maxRep else if prevDef ≤ 1 then 1 else maxRep - rep) ∧
      (∀ (pairs : List (Nat × Nat)) (stack : List NestedState),
        (pairs.foldl (stepPair isNullable maxRep maxDef) (initExtState stack)).isFirst =
          pairs.isEmpty) ∧
      (∀ (ps : List (Nat × Nat)) (stack : List NestedState) (r d : Nat),
        ((ps ++ [(r, d)]).foldl (stepPair isNullable maxRep maxDef)
            (initExtState stack)).prevDef = d) := by
  refine ⟨fun rep prevDef isFirst => rfl, fun pairs stack => ?_, fun ps stack r d => ?_⟩
  · rw [foldPairs_isFirst]
    simp [initExtState]
  · exact foldPairs_prevDef_last isNullable maxRep maxDef ps (initExtState stack) r d

/-- C3, counterexample. On a freshly initialized stack (`max_rep = 1`,
`max_def = 2`, one nullable container level over a terminal leaf level), a
single-pair input whose first pair has `rep = 1` leaves the container's
offsets sequence as `[1]` after the call: it does not begin with 0, because
the push window `[1, 3)` of the first pair skips depth 0 and the final close
appends the accumulated `values_count` of 1. -/
theorem c3_counterexample :
    offsetsList
        (nthState (extendOffsets [1] [2] false 1 2
          [.optional [] [], .primitive false]) 0) = [1] ∧
      (([1] : List Int).head? = some 0 → False) := by
  refine ⟨?_, by decide⟩
  decide

/-- C3, amended: restricted to a first pair with `rep = 0`. For every
non-empty pair sequence whose first repetition level is 0, every fresh
container level at a depth below `max_rep` has an offsets sequence beginning
with 0 after the `extend_offsets` call: the first pair's full-closure window
`[0, max_rep)` pushes the initial `values_count` of 0 into it, and all later
pushes and the final close only append. -/
theorem c3_starts_zero (rtl dtl : List Nat) (d0 : Nat) (isNullable : Bool)
    (maxRep maxDef : Nat) (stack : List NestedState) (j : Nat) (v : List Bool)
    (hj : j < stack.length) (hmr : j < maxRep)
    (hfresh : nthState stack j = .optional v [] ∨ nthState stack j = .valid []) :
    (offsetsList
        (nthState (extendOffsets (0 :: rtl) (d0 :: dtl) isNullable maxRep maxDef stack)
          j)).head? = some 0 :=
  extendOffsets_first_rep_zero rtl dtl d0 isNullable maxRep maxDef stack j v hj hmr hfresh

/-- Witness for `c3_starts_zero`: the concrete decode of C3's counterexample
input with the first repetition level replaced by 0. -/
theorem c3_starts_zero_witness :
    (offsetsList
        (nthState (extendOffsets [0] [2] false 1 2
          [.optional [] [], .primitive false]) 0)).head? = some 0 :=
  c3_starts_zero [] [] 2 false 1 2 [.optional [] [], .primitive false] 0 []
    (by decide) (by decide) (Or.inl (by decide))

/-- C4, counterexample. Two `extend_offsets` calls (two pages of one slot
each) on the same `NestedOptional` level leave it with four offsets and two
validity bits: `offsets.len() - 1 = 3 ≠ 2 = validity.len()`, because every
call appends one terminal offset. -/
theorem c4_counterexample :
    nthState (extendOffsets [0] [2] false 1 2
        (extendOffsets [0] [2] false 1 2 [.optional [] [], .primitive false])) 0 =
      .optional [true, true] [0, 1, 0, 1] ∧
      (offsetsList (.optional [true, true] [0, 1, 0, 1])).length - 1 ≠
        (validityList (.optional [true, true] [0, 1, 0, 1])).length := by
  refine ⟨?_, by decide⟩
  decide

/-- C4, amended: the invariant holds after a single `extend_offsets` call on
a fresh `NestedOptional` level: every push appends one offset and one
validity bit and the single final close appends exactly one more offset, so
`offsets.len() - 1 = validity.len()`. After `m` calls the relation is
`offsets.len() = validity.len() + m` (see C10). -/
theorem c4_invariant_single_call (reps dls : List Nat) (isNullable : Bool)
    (maxRep maxDef : Nat) (stack : List NestedState) (j : Nat)
    (hj : j < stack.length) (h : nthState stack j = .optional [] []) :
    (offsetsList (nthState (extendOffsets reps dls isNullable maxRep maxDef stack) j)).length =
      (validityList (nthState (extendOffsets reps dls isNullable maxRep maxDef stack) j)).length
        + 1 := by
  obtain ⟨v1, o1, h1, hl1⟩ := extendOffsets_optional reps dls isNullable maxRep maxDef stack
    j [] [] hj h
  rw [h1]
  simp [offsetsList, validityList, hl1]

/-- Witness for `c4_invariant_single_call`: the first call of C4's
counterexample pair of calls. -/
theorem c4_invariant_single_call_witness :
    (offsetsList
        (nthState (extendOffsets [0] [2] false 1 2
          [.optional [] [], .primitive false]) 0)).length =
      (validityList
        (nthState (extendOffsets [0] [2] false 1 2
          [.optional [] [], .primitive false]) 0)).length + 1 :=
  c4_invariant_single_call [0] [2] false 1 2 [.optional [] [], .primitive false] 0
    (by decide) (by decide)

/-- C5, counterexample. For a nested column (a container level over a
non-nullable leaf level) and a single one-slot page, the two orchestrations
produce different arrays: `iter_to_array` takes the nested branch, whose leaf
decode consults the innermost nullability (non-nullable leaf, so the slot is
valid), while `stream_to_array` has no nested support and runs the flat leaf
decode, keeping the page's null marker. -/
theorem c5_counterexample :
    (iterToArray [⟨[0], [2], [7], [false]⟩] ⟨1, 2⟩ .int64
        [.optional [] [], .primitive false]).map Prod.fst ≠
      Except.ok (streamToArray [⟨[0], [2], [7], [false]⟩] ⟨1, 2⟩ .int64) := by
  intro h
  have h2 : Except.ok (ε := Failure) (ArrayM.primitiveA .int64 [7] (some [true])) =
      Except.ok (ArrayM.primitiveA .int64 [7] (some [false])) := h
  simp at h2

/-- C5, amended: the two orchestrations implement the same contract only for
flat columns. When the stack holds a single (terminal) level state — the
flat-column shape — `iter_to_array` pops it and runs exactly the flat
per-page loop of `stream_to_array`, producing the same array (and an empty
remaining stack); `stream_to_array` takes no nested state stack and never
invokes the Level Decoder, so for nested columns only `iter_to_array`
implements the nested contract and the results differ. -/
theorem c5_flat_agree (pages : List DataPage) (meta : ColumnChunkMetaData)
    (dt : DataType) (st : NestedState) :
    iterToArray pages meta dt [st] = .ok (streamToArray pages meta dt, []) := rfl

/-- C6, counterexample. An unsupported physical type reaching `init_nested`
(here a union) hits the `todo!()` arm: a fatal panic that names no type, not
the descriptive, recoverable `NotYetImplemented` error the claim requires for
every unsupported shape. -/
theorem c6_counterexample :
    initNested .union true 0 [] = .error .fatal ∧
      ∀ dt : DataType, Failure.fatal ≠ Failure.notYetImplemented dt := by
  constructor
  · simp [initNested]
  · intro dt h
    exact Failure.noConfusion h

/-- C6, amended: only `create_list` reports unsupported shapes as the typed,
recoverable `NotYetImplemented` error naming the offending data type; an
unsupported physical type in `init_nested` (union or map) is a fatal
`todo!()` panic that identifies nothing. -/
theorem c6_unsupported_shapes (dt : DataType) (nested : List NestedState) (arr : ArrayM)
    (h1 : ∀ item itemNullable, dt ≠ .list item itemNullable)
    (h2 : ∀ item itemNullable, dt ≠ .largeList item itemNullable) :
    createList dt nested arr = .error (.notYetImplemented dt) ∧
      (∀ (isNullable : Bool) (capacity : Nat) (container : List NestedState),
        initNested .union isNullable capacity container = .error .fatal ∧
          initNested .mapT isNullable capacity container = .error .fatal) := by
  constructor
  · cases dt with
    | list item itemNullable => exact absurd rfl (h1 item itemNullable)
    | largeList item itemNullable => exact absurd rfl (h2 item itemNullable)
    | _ => rfl
  · intro isNullable capacity container
    exact ⟨by simp [initNested], by simp [initNested]⟩

/-- Witness for `c6_unsupported_shapes` at a struct target. -/
theorem c6_unsupported_shapes_witness :
    createList (.struct []) [] (.primitiveA .int64 [] none) =
        .error (.notYetImplemented (.struct [])) ∧
      (∀ (isNullable : Bool) (capacity : Nat) (container : List NestedState),
        initNested .union isNullable capacity container = .error .fatal ∧
          initNested .mapT isNullable capacity container = .error .fatal) :=
  c6_unsupported_shapes (.struct []) [] (.primitiveA .int64 [] none)
    (fun _ _ h => DataType.noConfusion h)
    (fun _ _ h => DataType.noConfusion h)

/-- C7: `create_list` with a `DataType::List` target maps every drained `i64`
offset through `as i32` (`toI32`) with no range check, and with a
`DataType::LargeList` target uses the offsets unchanged; `toI32 x` is exactly
`x` truncated to 32 bits: congruent to `x` modulo `2^32` and within the
signed 32-bit range. -/
theorem c7_offset_conversion :
    (∀ (item : DataType) (itemNullable : Bool) (rest : List NestedState) (v : List Bool)
        (o : List Int) (arr : ArrayM),
      createList (.list item itemNullable) (rest ++ [.optional v o]) arr =
        .ok (.listA (.list item itemNullable) (o.map toI32) arr (some v), rest)) ∧
      (∀ (item : DataType) (itemNullable : Bool) (rest : List NestedState) (o : List Int)
          (arr : ArrayM),
        createList (.list item itemNullable) (rest ++ [.valid o]) arr =
          .ok (.listA (.list item itemNullable) (o.map toI32) arr none, rest)) ∧
      (∀ (item : DataType) (itemNullable : Bool) (rest : List NestedState) (v : List Bool)
          (o : List Int) (arr : ArrayM),
        createList (.largeList item itemNullable) (rest ++ [.optional v o]) arr =
          .ok (.largeListA (.largeList item itemNullable) o arr (some v), rest)) ∧
      (∀ x : Int, toI32 x % 4294967296 = x % 4294967296 ∧
        -2147483648 ≤ toI32 x ∧ toI32 x < 2147483648) := by
  refine ⟨?_, ?_, ?_, ?_⟩
  · intro item itemNullable rest v o arr
    simp [createList, List.getLast?_concat, NestedState.inner]
  · intro item itemNullable rest o arr
    simp [createList, List.getLast?_concat, NestedState.inner]
  · intro item itemNullable rest v o arr
    simp [createList, List.getLast?_concat, NestedState.inner]
  · intro x
    have h0 : (0 : Int) ≤ x % 4294967296 := Int.emod_nonneg x (by decide)
    have h1 : x % 4294967296 < 4294967296 := Int.emod_lt_of_pos x (by decide)
    simp only [toI32]
    split
    · exact ⟨Int.emod_eq_of_lt h0 h1, by omega, by omega⟩
    · refine ⟨?_, by omega, by omega⟩
      rw [Int.emod_sub_cancel, Int.emod_eq_of_lt h0 h1]

/-- C8: `last_offset` on the two container level states returns the last
offset of the offsets buffer; on an empty buffer (no push has occurred) the
`unwrap` fails — modelled as `none`, a fatal panic distinct from every typed
error — and after a push (or a push followed by further appends such as
`close`) the buffer is non-empty, so the failure branch is unreachable and
the last pushed or appended offset is returned. -/
theorem c8_last_offset (v : List Bool) (o : List Int) (x y : Int) (b : Bool) :
    (NestedState.optional v []).lastOffset = none ∧
      (NestedState.valid []).lastOffset = none ∧
      (NestedState.optional v o).lastOffset = o.getLast? ∧
      (NestedState.valid o).lastOffset = o.getLast? ∧
      ((NestedState.optional v o).push x b).lastOffset = some x ∧
      ((NestedState.valid o).push x b).lastOffset = some x ∧
      (((NestedState.optional v o).push x b).close y).lastOffset = some y := by
  refine ⟨rfl, rfl, rfl, rfl, ?_, ?_, ?_⟩
  · simp [NestedState.push, NestedState.lastOffset]
  · simp [NestedState.push, NestedState.lastOffset]
  · simp [NestedState.push, NestedState.close, NestedState.lastOffset]

/-- C9: when every zipped level pair satisfies `rep ≤ max_rep` and
`rep ≤ def`, the checked embedding of `extend_offsets` — whose `none` branch
models the underflow panic of the unsigned subtractions `max_rep - rep` and
`def - rep` — never fails and agrees with the total embedding. -/
theorem c9_no_underflow (reps dls : List Nat) (isNullable : Bool) (maxRep maxDef : Nat)
    (stack : List NestedState)
    (h : ∀ p ∈ reps.zip dls, p.1 ≤ maxRep ∧ p.1 ≤ p.2) :
    extendOffsetsC reps dls isNullable maxRep maxDef stack =
      some (extendOffsets reps dls isNullable maxRep maxDef stack) := by
  rw [extendOffsetsC, runPairsC_eq_fold isNullable maxRep maxDef (reps.zip dls)
    (initExtState stack) h]
  rfl

/-- Witness for `c9_no_underflow` on a two-pair page with `max_rep = 1`,
`max_def = 2`. -/
theorem c9_no_underflow_witness :
    extendOffsetsC [0, 1] [2, 2] true 1 2 [.valid [], .primitive false] =
      some (extendOffsets [0, 1] [2, 2] true 1 2 [.valid [], .primitive false]) :=
  c9_no_underflow [0, 1] [2, 2] true 1 2 [.valid [], .primitive false] (by decide)

/-- C10: every `extend_offsets` call — including one with empty level
iterators, where the whole call reduces to closing each level with the
initial count 0 — ends by closing every level state exactly once; hence over
the per-page decode loop a `NestedOptional` container accumulates exactly one
terminal offset per page (its offsets grow by the number of pages beyond its
validity growth), not one per column decode. -/
theorem c10_close_per_call :
    (∀ (isNullable : Bool) (maxRep maxDef : Nat) (stack : List NestedState),
      extendOffsets [] [] isNullable maxRep maxDef stack =
        stack.map (fun n => n.close 0)) ∧
      (∀ (isNullable : Bool) (maxRep maxDef : Nat)
          (pagesLevels : List (List Nat × List Nat)) (stack : List NestedState)
          (j : Nat) (v : List Bool) (o : List Int),
        j < stack.length → nthState stack j = .optional v o →
        ∃ v1 o1,
          nthState (decodePages pagesLevels isNullable maxRep maxDef stack) j =
              .optional (v ++ v1) (o ++ o1) ∧
            o1.length = v1.length + pagesLevels.length) := by
  constructor
  · exact fun isNullable maxRep maxDef stack => extendOffsets_nil isNullable maxRep maxDef stack
  · exact fun isNullable maxRep maxDef pagesLevels stack j v o hj h =>
      decodePages_optional isNullable maxRep maxDef pagesLevels stack j v o hj h

/-- Witness for `c10_close_per_call`: three one-slot pages leave the
container of C4's stack with three more offsets than validity bits. -/
theorem c10_close_per_call_witness :
    ∃ v1 o1,
      nthState (decodePages [([0], [2]), ([0], [2]), ([0], [2])] false 1 2
          [.optional [] [], .primitive false]) 0 =
          .optional ([] ++ v1) ([] ++ o1) ∧
        o1.length = v1.length + ([([0], [2]), ([0], [2]), ([0], [2])] :
          List (List Nat × List Nat)).length :=
  c10_close_per_call.2 false 1 2 [([0], [2]), ([0], [2]), ([0], [2])]
    [.optional [] [], .primitive false] 0 [] [] (by decide) (by decide)

end Arrow2
